import Mathlib

/-!
# Verification of the image-retrieval core

A shallow embedding, in Lean 4, of the core of the `imgretrieval` repository:
the catalog (SQLite `images` table, `src/database.py`), the search engine
(`src/search.py`, a FAISS `IndexFlatIP` exact inner-product scan), and the
duplicate engine (`src/deduplication.py`: union-find grouping, per-group
survivor selection, filter-list artifacts).

Conventions of the embedding:

* SQLite rows become Lean structures; the `status` column keeps the source's
  integer encoding (0 = Pending, 1 = Processed, 2 = Failed).
* float32 vectors are embedded as `List ℚ` (exact arithmetic standing in for
  the idealized floating-point contract of the spec).
* The filesystem is a function `String → Option Nat` (`none` = the file does
  not exist or its size cannot be read, `some s` = the file has size `s`),
  matching the `os.path.exists` / `os.path.getsize` usage in the source.
* FAISS `IndexFlatIP.search` is modelled by its exact-search contract:
  scores are inner products against every stored row, results are the top-k
  rows by descending score, exact ties broken by ascending row id.
-/

namespace ImgRetrieval

/-! ## Catalog (`src/database.py`)

The `images` table: `id INTEGER PRIMARY KEY AUTOINCREMENT`,
`path TEXT UNIQUE NOT NULL`, `status INTEGER DEFAULT 0`.
-/

/-- One row of the `images` table. `status` uses the source's integer codes:
0 = Pending, 1 = Processed, 2 = Failed. -/
structure ImageRecord where
  id : Nat
  path : String
  status : Nat
  deriving DecidableEq, Repr

/-- The `images` table: rows in insertion (= id) order plus the
autoincrement counter. -/
structure Catalog where
  records : List ImageRecord
  nextId : Nat
  deriving DecidableEq, Repr

/-- Whether a path is already present (the `UNIQUE` constraint on `path`). -/
def hasPath (c : Catalog) (p : String) : Bool :=
  c.records.any fun r => r.path == p

/-- `INSERT OR IGNORE INTO images (path) VALUES (?)` for a single path
(`insert_image` / one step of `insert_images_batch`): a new row with a fresh
id and status 0 when the path is absent, no change when it is present.
Returns the catalog and whether a row was inserted (`cursor.rowcount > 0`). -/
def insertImage (c : Catalog) (p : String) : Catalog × Bool :=
  if hasPath c p then (c, false)
  else ({ records := c.records ++ [{ id := c.nextId, path := p, status := 0 }],
          nextId := c.nextId + 1 }, true)

/-- One `executemany` step of `insert_images_batch`: run `INSERT OR IGNORE`
for one path and add its rowcount contribution. -/
def insertStep (acc : Catalog × Nat) (p : String) : Catalog × Nat :=
  ((insertImage acc.1 p).1, acc.2 + (if (insertImage acc.1 p).2 then 1 else 0))

/-- `insert_images_batch(paths)`: `executemany` of `INSERT OR IGNORE` over the
batch, returning the new catalog and the number of newly inserted rows
(the summed `rowcount`, which counts only actual inserts). -/
def insert_images_batch (c : Catalog) (ps : List String) : Catalog × Nat :=
  ps.foldl insertStep (c, 0)

/-- The status of the record with a given id, if any. -/
def statusOf (c : Catalog) (i : Nat) : Option Nat :=
  (c.records.find? fun r => r.id == i).map (·.status)

/-- `UPDATE images SET status = s WHERE id = i`: unconditional update of the
matching rows' status column. -/
def setStatus (c : Catalog) (i : Nat) (s : Nat) : Catalog :=
  { c with records := c.records.map fun r =>
      if r.id = i then { r with status := s } else r }

/-- `mark_as_processed(ids)`: `executemany` of
`UPDATE images SET status = 1 WHERE id = ?`. -/
def mark_as_processed (c : Catalog) (ids : List Nat) : Catalog :=
  ids.foldl (fun c i => setStatus c i 1) c

/-- `mark_as_failed(image_id)`: `UPDATE images SET status = 2 WHERE id = ?`. -/
def mark_as_failed (c : Catalog) (i : Nat) : Catalog :=
  setStatus c i 2

/-- One call against the catalog's status-updating interface. -/
inductive MarkOp where
  | processed (ids : List Nat)
  | failed (id : Nat)
  deriving DecidableEq, Repr

/-- Apply one `mark_as_processed` / `mark_as_failed` call. -/
def applyMark (c : Catalog) : MarkOp → Catalog
  | .processed ids => mark_as_processed c ids
  | .failed i => mark_as_failed c i

/-- Run a sequence of mark calls. -/
def runMarks (c : Catalog) (ops : List MarkOp) : Catalog :=
  ops.foldl applyMark c

/-- All paths currently registered. -/
def pathsOf (c : Catalog) : List String :=
  c.records.map (·.path)

/-- The per-record effect of one mark call: `mark_as_processed` rewrites the
status of every row whose id is in the batch to 1, `mark_as_failed` rewrites
the row with the given id to 2. -/
def markFun : MarkOp → ImageRecord → ImageRecord
  | .processed ids, r => if r.id ∈ ids then { r with status := 1 } else r
  | .failed i, r => if r.id = i then { r with status := 2 } else r

/-- The per-record effect of a sequence of mark calls. -/
def markFold (ops : List MarkOp) (r : ImageRecord) : ImageRecord :=
  ops.foldl (fun r op => markFun op r) r

/-! ## Search engine (`src/search.py`)

`SearchEngine` holds a FAISS `IndexFlatIP` over the stored float32 vectors
plus the parallel `image_paths` list. `IndexFlatIP.search` is embedded by
its exact-search contract: score = inner product against every stored row,
results = top-k rows by descending score, exact ties broken by ascending
row id (first-inserted wins).
-/

/-- Inner product of two vectors (the FAISS `IndexFlatIP` score). -/
def dot (u v : List ℚ) : ℚ :=
  (List.zipWith (· * ·) u v).sum

/-- The in-memory state of a loaded index: the row matrix (row order =
insertion order = ascending image id) and the parallel `image_paths` list. -/
structure SearchIndex where
  paths : List String
  vecs : List (List ℚ)

/-- `SearchEngine.build_index`: returns no index when the feature store is
empty (`if not paths: return False`), otherwise stores the parallel
path/vector lists loaded from the database. -/
def build_index (paths : List String) (vecs : List (List ℚ)) : Option SearchIndex :=
  if paths.isEmpty then none else some ⟨paths, vecs⟩

/-- The FAISS result ranking as a Boolean comparison on `(row, score)`
pairs: higher score first, exact ties broken by lower row id. -/
def rankLE (a b : Nat × ℚ) : Bool :=
  decide (b.2 < a.2) || (decide (a.2 = b.2) && decide (a.1 ≤ b.1))

/-- The result ranking as a proposition: `a` is ranked no worse than `b`. -/
def RankRel (a b : Nat × ℚ) : Prop :=
  b.2 < a.2 ∨ (a.2 = b.2 ∧ a.1 ≤ b.1)

/-- `faiss.IndexFlatIP.search(query, k)` on row matrix `vecs`: score every
row by inner product with the query, rank all rows (descending score, ties
by ascending row id) and return the first `k` `(row, score)` pairs. -/
def faissSearch (vecs : List (List ℚ)) (q : List ℚ) (k : Nat) : List (Nat × ℚ) :=
  (((vecs.map fun v => dot q v).enum).mergeSort rankLE).take k

/-- `SearchEngine.search_by_vector(query_vector, k)`: empty when no index is
loaded; otherwise clamp `k` to `ntotal`, run the FAISS search, and translate
rows to paths (keeping the source's `idx < len(self.image_paths)` guard). -/
def search_by_vector (index : Option SearchIndex) (q : List ℚ) (k : Nat) :
    List (String × ℚ) :=
  match index with
  | none => []
  | some ix =>
    (faissSearch ix.vecs q (min k ix.vecs.length)).filterMap fun p =>
      if p.1 < ix.paths.length then some (ix.paths.getD p.1 "", p.2) else none

/-- `SearchEngine.search(query_image_path, k)`: empty when no index is
loaded; otherwise ask the Embedding Provider (`FeatureExtractor.extract`,
modelled as a function that returns `none` exactly when extraction of the
query fails) for the query vector and delegate to `search_by_vector`. -/
def search (index : Option SearchIndex) (embed : String → Option (List ℚ))
    (queryPath : String) (k : Nat) : List (String × ℚ) :=
  match index with
  | none => []
  | some ix =>
    match embed queryPath with
    | none => []
    | some q => search_by_vector (some ix) q k

/-- The full top-k contract of `search_by_vector` claimed by C5 at one
index/query/k: the result has length exactly `min k n`; it is the
row-to-path image of the FAISS ranking; that ranking is sorted by descending
score with exact ties broken by ascending row id, scores every returned row
by inner product with the query, and is a true top-k (every row not
returned ranks no better than every row returned); and the returned scores
are descending. -/
def C5Prop (ix : SearchIndex) (q : List ℚ) (k : Nat) : Prop :=
  (search_by_vector (some ix) q k).length = min k ix.vecs.length
  ∧ search_by_vector (some ix) q k
      = (faissSearch ix.vecs q (min k ix.vecs.length)).map
          (fun p => (ix.paths.getD p.1 "", p.2))
  ∧ List.Pairwise RankRel (faissSearch ix.vecs q (min k ix.vecs.length))
  ∧ (∀ p ∈ faissSearch ix.vecs q (min k ix.vecs.length),
      p.1 < ix.vecs.length ∧ p.2 = dot q (ix.vecs.getD p.1 []))
  ∧ (∃ rest,
      List.Perm (faissSearch ix.vecs q (min k ix.vecs.length) ++ rest)
        ((ix.vecs.map fun v => dot q v).enum)
      ∧ ∀ a ∈ faissSearch ix.vecs q (min k ix.vecs.length), ∀ b ∈ rest, RankRel a b)
  ∧ List.Pairwise (fun a b : String × ℚ => b.2 ≤ a.2) (search_by_vector (some ix) q k)

/-- The self-search property claimed by C4, amended: querying a freshly
built index of unit vectors with row `j`'s own stored vector puts score 1.0
at the head of the results, attributed to the first row whose stored vector
equals the query; that row is `j` itself whenever no other row stores the
identical vector. -/
def C4Prop (ix : SearchIndex) (j k : Nat) : Prop :=
  ∃ i0, i0 ≤ j
    ∧ ix.vecs.getD i0 [] = ix.vecs.getD j []
    ∧ (∀ i < i0, ix.vecs.getD i [] ≠ ix.vecs.getD j [])
    ∧ (search_by_vector (some ix) (ix.vecs.getD j []) k).head?
        = some (ix.paths.getD i0 "", 1)
    ∧ ((∀ i < ix.vecs.length, i ≠ j → ix.vecs.getD i [] ≠ ix.vecs.getD j []) →
        (search_by_vector (some ix) (ix.vecs.getD j []) k).head?
          = some (ix.paths.getD j "", 1))

/-! ## Duplicate engine, phase 2: survivor selection
(`src/deduplication.py`, `DuplicateSelector`, `FilterListGenerator`,
`DeduplicationReport`)

The filesystem is a function `fs : String → Option Nat`: `none` when
`os.path.exists(path)` is false or `os.path.getsize(path)` raises (both
branches score 0 in the source), `some s` when the file has size `s`.
The source accumulates `retained_paths` and `filtered_paths` as Python
sets and returns them as lists in unspecified set order; they are embedded
as `Finset String`.
-/

/-- The per-member score of `select_best_from_groups`:
`file_sizes.get(x, 0)` — the on-disk size, with a missing or unreadable
file counting as 0. -/
def sizeScore (fs : String → Option Nat) (paths : List String) (i : Nat) : Nat :=
  (fs (paths.getD i "")).getD 0

/-- Python's `max(xs, key=f)`: the first element attaining the maximal key
(a later element replaces the current best only on a strictly greater key);
`none` on the empty list, where `max([])` raises `ValueError`. -/
def pyMax (key : Nat → Nat) : List Nat → Option Nat
  | [] => none
  | x :: xs => some (xs.foldl (fun b a => if key b < key a then a else b) x)

/-- The member `select_best_from_groups` retains from one nonempty group:
`max(group_list, key=lambda x: file_sizes.get(x, 0))`. -/
def survivorOf (fs : String → Option Nat) (paths : List String) (g : List Nat) : Nat :=
  (pyMax (sizeScore fs paths) g).getD 0

/-- One group step of `select_best_from_groups`: add the survivor's path to
the retained set and every other member's path to the filtered set. -/
def selStep (fs : String → Option Nat) (paths : List String)
    (acc : Finset String × Finset String) (g : List Nat) :
    Finset String × Finset String :=
  match pyMax (sizeScore fs paths) g with
  | none => acc
  | some best =>
    (insert (paths.getD best "") acc.1,
     acc.2 ∪ ((g.filter (· != best)).map fun i => paths.getD i "").toFinset)

/-- `DuplicateSelector.select_best_from_groups(duplicate_groups)`: for each
group, score every member by file size, retain the first member with
maximal size and mark every other member filtered. Returns
`(retained_paths, filtered_paths)`; `none` models the `ValueError` that
`max([])` raises on an empty group (never produced by the merge phase). -/
def select_best_from_groups (fs : String → Option Nat) (paths : List String)
    (groups : List (List Nat)) : Option (Finset String × Finset String) :=
  if groups.all (fun g => !g.isEmpty) then
    some (groups.foldl (selStep fs paths) (∅, ∅))
  else none

/-- The retained paths, one per group, in group order. -/
def survivorPaths (fs : String → Option Nat) (paths : List String)
    (groups : List (List Nat)) : List String :=
  groups.map fun g => paths.getD (survivorOf fs paths g) ""

/-- The filtered paths: every non-survivor member of every group. -/
def filteredMembers (fs : String → Option Nat) (paths : List String)
    (groups : List (List Nat)) : List String :=
  (groups.map fun g =>
    (g.filter (· != survivorOf fs paths g)).map fun i => paths.getD i "").flatten

/-- The paths of all images that appear in any group. -/
def memberPaths (paths : List String) (groups : List (List Nat)) : List String :=
  groups.flatten.map fun i => paths.getD i ""

/-- One per-group entry of the dedup report. -/
structure ReportGroup where
  group_id : Nat
  size : Nat
  images : List String
  deriving DecidableEq, Repr

/-- The dedup report: summary counts plus per-group membership. -/
structure DedupReport where
  total_images : Nat
  duplicate_groups : Nat
  filtered_count : Nat
  retained_count : Nat
  groups : List ReportGroup
  deriving DecidableEq, Repr

/-- `DeduplicationReport.generate_report`: summary counts plus, for every
group, its 1-based id, its size, and its member paths listed in ascending
member-id order (`sorted(group_list)`). -/
def generate_report (groups : List (List Nat)) (paths : List String)
    (filtered retained : List String) : DedupReport :=
  { total_images := paths.length
    duplicate_groups := groups.length
    filtered_count := filtered.length
    retained_count := retained.length
    groups := groups.enum.map fun gi =>
      { group_id := gi.1 + 1
        size := gi.2.length
        images := (gi.2.mergeSort fun a b => decide (a ≤ b)).map
          fun i => paths.getD i "" } }

/-- `FilterListGenerator.load_filter_list(filter_path)`: the persisted
filter list. The read is modelled as `none` = the file does not exist
(`os.path.exists` false), `some none` = it exists but reading or JSON
parsing raises (the `except` branch), `some (some l)` = it parses with
`filtered_images` list `l` (a missing key yields `some (some [])`). -/
def load_filter_list (readFile : String → Option (Option (List String)))
    (filter_path : String) : Finset String :=
  match readFile filter_path with
  | none => ∅
  | some none => ∅
  | some (some l) => l.toFinset

/-- The amended per-group survivor contract of claim C6 (see
`C6_survivor_amended`): selection succeeds, the survivor is a group member
whose file size is maximal in the group and which is the **first** member of
the group's iteration order attaining that maximum (every earlier member is
strictly smaller); the survivor's path is retained and every other member's
path is filtered. -/
def C6Prop (fs : String → Option Nat) (paths : List String)
    (groups : List (List Nat)) (g : List Nat) : Prop :=
  ∃ R F, select_best_from_groups fs paths groups = some (R, F)
    ∧ survivorOf fs paths g ∈ g
    ∧ (∀ i ∈ g, sizeScore fs paths i ≤ sizeScore fs paths (survivorOf fs paths g))
    ∧ (∃ l₁ l₂, g = l₁ ++ survivorOf fs paths g :: l₂
        ∧ ∀ i ∈ l₁, sizeScore fs paths i < sizeScore fs paths (survivorOf fs paths g))
    ∧ paths.getD (survivorOf fs paths g) "" ∈ R
    ∧ (∀ i ∈ g, i ≠ survivorOf fs paths g → paths.getD i "" ∈ F)

/-- The amended missing-file contract of claim C7 (see
`C7_missing_member_amended`): a group member whose file no longer exists is
scored 0 rather than raising, is not the survivor (provided some member of
its group scores positively), its path still appears in the filtered output,
and it still appears in the report's member listing of its group. -/
def C7Prop (fs : String → Option Nat) (paths : List String)
    (groups : List (List Nat)) (g : List Nat) (i : Nat) : Prop :=
  sizeScore fs paths i = 0
  ∧ survivorOf fs paths g ≠ i
  ∧ (∃ R F, select_best_from_groups fs paths groups = some (R, F)
      ∧ paths.getD i "" ∈ F)
  ∧ ∀ filtered retained, ∃ rg ∈ (generate_report groups paths filtered retained).groups,
      paths.getD i "" ∈ rg.images

/-- The counting identity of claim C9 (see `C9_selection_counts`): selection
succeeds; exactly one path is retained per group; retained + filtered counts
add up to the total number of images appearing in any group; and a path
belonging to no group is in neither output. -/
def C9Prop (fs : String → Option Nat) (paths : List String)
    (groups : List (List Nat)) : Prop :=
  ∃ R F, select_best_from_groups fs paths groups = some (R, F)
    ∧ R.card = groups.length
    ∧ F.card + R.card = (groups.map List.length).sum
    ∧ ∀ p, p ∉ memberPaths paths groups → p ∉ R ∧ p ∉ F

/-! ## Duplicate engine, phase 1 merge
(`DuplicateDetector.merge_duplicate_groups`)

`find_duplicate_groups` emits, for each row `i` of the index, the rows
`idx != i` whose similarity clears the threshold; `merge_duplicate_groups`
consumes only the `(img_id, dup_id)` pairs (similarities are ignored), so
its input is embedded as an edge list. The source's hand-rolled union-find
(`parent = list(range(n))`, recursive `find` with path compression, naive
`union` linking roots) is embedded as `Batteries.UnionFind` (a parent array
with path compression and union by rank): both realize the same
`union`/`find` partition semantics — the same rows end up with the same
root exactly when a chain of processed unions connects them — and the merge
step consumes only that partition, grouping rows by root. -/

/-- A phase-1 edge list is qualifying when every edge joins two distinct
in-range rows (`find_duplicate_groups` only emits search results `idx` of
the `n`-row index with `idx != i`). -/
def QualifyingEdges (n : Nat) (E : List (Nat × Nat)) : Prop :=
  ∀ e ∈ E, e.1 < n ∧ e.2 < n ∧ e.1 ≠ e.2

/-- `parent = list(range(n))`: the initial union-find over rows 0..n-1. -/
def ufInit : Nat → Batteries.UnionFind
  | 0 => Batteries.UnionFind.empty
  | n + 1 => (ufInit n).push

/-- `for img_id, duplicates in duplicate_groups.items(): for dup_id, _ in
duplicates: union(img_id, dup_id)`: union every edge (out-of-range edges,
which phase 1 never produces, are skipped rather than made panics). -/
def unionEdges (uf : Batteries.UnionFind) (E : List (Nat × Nat)) :
    Batteries.UnionFind :=
  E.foldl (fun uf e =>
    if h : e.1 < uf.size ∧ e.2 < uf.size then uf.union ⟨e.1, h.1⟩ ⟨e.2, h.2⟩
    else uf) uf

/-- The union-find state after unioning all edges over `n` rows. -/
def mergeUF (n : Nat) (E : List (Nat × Nat)) : Batteries.UnionFind :=
  unionEdges (ufInit n) E

/-- Python-dict key order: the first occurrence of each value in the list
(`groups_dict` is a `defaultdict` whose keys appear in insertion order). -/
def dictKeys (l : List Nat) : List Nat :=
  l.foldl (fun acc r => if r ∈ acc then acc else acc ++ [r]) []

/-- The rows grouped under root `r` (`groups_dict[find(i)].add(i)` for
`i in range(n)`); a group is the ascending list of its row ids (a CPython
set of small ints iterates in ascending order). -/
def classOf (uf : Batteries.UnionFind) (n r : Nat) : List Nat :=
  (List.range n).filter fun i => decide (uf.rootD i = r)

/-- `DuplicateDetector.merge_duplicate_groups`: union every edge over rows
0..n-1, group the rows by their root, and return the groups of size > 1,
in first-occurrence order of their roots. -/
def merge_duplicate_groups (n : Nat) (E : List (Nat × Nat)) : List (List Nat) :=
  ((dictKeys ((List.range n).map fun i => (mergeUF n E).rootD i)).map
    fun r => classOf (mergeUF n E) n r).filter fun g => decide (1 < g.length)

/-- A chain of qualifying edges connects two rows: the equivalence closure
of the edge relation. -/
def Connected (E : List (Nat × Nat)) (x y : Nat) : Prop :=
  Relation.EqvGen (fun a b => (a, b) ∈ E) x y

/-- The connected-components contract of claim C1 (see
`C1_merge_components`): the merged duplicate groups are pairwise disjoint,
each has size at least 2, two distinct rows share a group exactly when a
chain of qualifying edges connects them, and the group sizes sum to the
number of rows incident to at least one qualifying edge. -/
def C1Prop (n : Nat) (E : List (Nat × Nat)) : Prop :=
  (merge_duplicate_groups n E).Pairwise (fun g h => ∀ i ∈ g, i ∉ h)
  ∧ (∀ g ∈ merge_duplicate_groups n E, 2 ≤ g.length)
  ∧ (∀ x y, x ≠ y →
      ((∃ g ∈ merge_duplicate_groups n E, x ∈ g ∧ y ∈ g) ↔ Connected E x y))
  ∧ ((merge_duplicate_groups n E).map List.length).sum
      = ((List.range n).filter fun x => E.any fun e => e.1 == x || e.2 == x).length

/-! ### Catalog lemmas -/

theorem insertImage_of_hasPath {c : Catalog} {p : String} (h : hasPath c p = true) :
    insertImage c p = (c, false) := by
  simp [insertImage, h]

theorem hasPath_insertImage (c : Catalog) (p q : String) (h : hasPath c q = true) :
    hasPath (insertImage c p).1 q = true := by
  unfold insertImage
  split
  · exact h
  · simp only [hasPath, List.any_append, Bool.or_eq_true] at *
    exact Or.inl h

theorem hasPath_insertImage_self (c : Catalog) (p : String) :
    hasPath (insertImage c p).1 p = true := by
  unfold insertImage
  split
  · assumption
  · simp [hasPath]

theorem insert_images_batch_shift (ps : List String) (c : Catalog) (k : Nat) :
    ps.foldl insertStep (c, k)
      = ((insert_images_batch c ps).1, k + (insert_images_batch c ps).2) := by
  induction ps generalizing c k with
  | nil => simp [insert_images_batch]
  | cons p ps ih =>
    show ps.foldl insertStep (insertStep (c, k) p) = _
    rw [show insertStep (c, k) p
          = ((insertImage c p).1, k + (if (insertImage c p).2 then 1 else 0)) from rfl]
    rw [ih]
    show _ = ((ps.foldl insertStep (insertStep (c, 0) p)).1,
              k + (ps.foldl insertStep (insertStep (c, 0) p)).2)
    rw [show insertStep (c, 0) p
          = ((insertImage c p).1, 0 + (if (insertImage c p).2 then 1 else 0)) from rfl]
    rw [ih]
    simp only [Prod.mk.injEq, true_and]
    omega

theorem insert_images_batch_fst_cons (c : Catalog) (p : String) (ps : List String) :
    (insert_images_batch c (p :: ps)).1
      = (insert_images_batch (insertImage c p).1 ps).1 := by
  show (ps.foldl insertStep (insertStep (c, 0) p)).1 = _
  rw [show insertStep (c, 0) p
        = ((insertImage c p).1, 0 + (if (insertImage c p).2 then 1 else 0)) from rfl]
  rw [insert_images_batch_shift]

theorem insert_images_batch_of_present (ps : List String) (c : Catalog)
    (h : ∀ p ∈ ps, hasPath c p = true) :
    insert_images_batch c ps = (c, 0) := by
  induction ps generalizing c with
  | nil => rfl
  | cons p ps ih =>
    have hp := h p (by simp)
    show ps.foldl insertStep (insertStep (c, 0) p) = (c, 0)
    rw [show insertStep (c, 0) p = (c, 0) from by
      simp [insertStep, insertImage_of_hasPath hp]]
    exact ih c fun q hq => h q (by simp [hq])

theorem hasPath_insert_images_batch (ps : List String) (c : Catalog) (q : String)
    (h : hasPath c q = true) :
    hasPath (insert_images_batch c ps).1 q = true := by
  induction ps generalizing c with
  | nil => exact h
  | cons p ps ih =>
    rw [insert_images_batch_fst_cons]
    exact ih _ (hasPath_insertImage c p q h)

theorem hasPath_insert_images_batch_of_mem (ps : List String) (c : Catalog) (q : String)
    (h : q ∈ ps) :
    hasPath (insert_images_batch c ps).1 q = true := by
  induction ps generalizing c with
  | nil => cases h
  | cons p ps ih =>
    rw [insert_images_batch_fst_cons]
    rcases List.mem_cons.1 h with rfl | hq
    · exact hasPath_insert_images_batch ps _ q (hasPath_insertImage_self c q)
    · exact ih _ hq

theorem mark_as_processed_records (c : Catalog) (ids : List Nat) :
    (mark_as_processed c ids).records
      = c.records.map fun r => if r.id ∈ ids then { r with status := 1 } else r := by
  induction ids generalizing c with
  | nil => simp [mark_as_processed]
  | cons i ids ih =>
    show (mark_as_processed (setStatus c i 1) ids).records = _
    rw [ih]
    simp only [setStatus, List.map_map]
    apply List.map_congr_left
    intro r _
    by_cases h : r.id = i
    · by_cases h2 : i ∈ ids <;>
        simp [Function.comp, h, h2, List.mem_cons]
    · by_cases h2 : r.id ∈ ids <;>
        simp [Function.comp, h, h2, List.mem_cons]

theorem applyMark_records (c : Catalog) (op : MarkOp) :
    (applyMark c op).records = c.records.map (markFun op) := by
  cases op with
  | processed ids => exact mark_as_processed_records c ids
  | failed i => rfl

theorem applyMark_nextId (c : Catalog) (op : MarkOp) :
    (applyMark c op).nextId = c.nextId := by
  cases op with
  | processed ids =>
    induction ids generalizing c with
    | nil => rfl
    | cons i ids ih => exact ih (setStatus c i 1)
  | failed i => rfl

theorem runMarks_records (c : Catalog) (ops : List MarkOp) :
    (runMarks c ops).records = c.records.map (markFold ops) := by
  induction ops generalizing c with
  | nil =>
    show c.records = List.map (markFold []) c.records
    rw [show List.map (markFold []) c.records = List.map id c.records from
      List.map_congr_left fun r _ => rfl, List.map_id]
  | cons op ops ih =>
    show (runMarks (applyMark c op) ops).records = _
    rw [ih, applyMark_records, List.map_map]
    rfl

theorem markFun_id (op : MarkOp) (r : ImageRecord) : (markFun op r).id = r.id := by
  cases op with
  | processed ids => by_cases h : r.id ∈ ids <;> simp [markFun, h]
  | failed i => by_cases h : r.id = i <;> simp [markFun, h]

theorem markFun_path (op : MarkOp) (r : ImageRecord) : (markFun op r).path = r.path := by
  cases op with
  | processed ids => by_cases h : r.id ∈ ids <;> simp [markFun, h]
  | failed i => by_cases h : r.id = i <;> simp [markFun, h]

theorem markFun_status (op : MarkOp) (r : ImageRecord) :
    (markFun op r).status = r.status ∨ (markFun op r).status = 1
      ∨ (markFun op r).status = 2 := by
  cases op with
  | processed ids => by_cases h : r.id ∈ ids <;> simp [markFun, h]
  | failed i => by_cases h : r.id = i <;> simp [markFun, h]

theorem markFold_id (ops : List MarkOp) (r : ImageRecord) : (markFold ops r).id = r.id := by
  induction ops generalizing r with
  | nil => rfl
  | cons op ops ih =>
    show (markFold ops (markFun op r)).id = r.id
    rw [ih, markFun_id]

theorem markFold_status (ops : List MarkOp) (r : ImageRecord) :
    (markFold ops r).status = r.status ∨ (markFold ops r).status = 1
      ∨ (markFold ops r).status = 2 := by
  induction ops generalizing r with
  | nil => exact Or.inl rfl
  | cons op ops ih =>
    have hc : markFold (op :: ops) r = markFold ops (markFun op r) := rfl
    rw [hc]
    rcases ih (markFun op r) with h | h | h
    · rw [h]
      exact markFun_status op r
    · exact Or.inr (Or.inl h)
    · exact Or.inr (Or.inr h)

theorem markFun_markFun (op : MarkOp) (r : ImageRecord) :
    markFun op (markFun op r) = markFun op r := by
  cases op with
  | processed ids =>
    by_cases h : r.id ∈ ids <;> simp [markFun, h]
  | failed i =>
    by_cases h : r.id = i <;> simp [markFun, h]

theorem catalogExt {a b : Catalog} (h1 : a.records = b.records)
    (h2 : a.nextId = b.nextId) : a = b := by
  cases a
  cases b
  simp only at h1 h2
  rw [h1, h2]

theorem applyMark_applyMark (c : Catalog) (op : MarkOp) :
    applyMark (applyMark c op) op = applyMark c op := by
  refine catalogExt ?_ ?_
  · rw [applyMark_records (applyMark c op) op, applyMark_records c op, List.map_map]
    exact List.map_congr_left fun r _ => markFun_markFun op r
  · rw [applyMark_nextId, applyMark_nextId]

theorem statusOf_runMarks_ne_pending (c : Catalog) (ops : List MarkOp) (i : Nat)
    (h : statusOf c i ≠ some 0) : statusOf (runMarks c ops) i ≠ some 0 := by
  unfold statusOf at h ⊢
  rw [runMarks_records, List.find?_map]
  have hpred : ((fun r : ImageRecord => r.id == i) ∘ markFold ops)
      = fun r : ImageRecord => r.id == i := by
    funext r
    simp [Function.comp, markFold_id]
  rw [hpred]
  cases hf : c.records.find? fun r => r.id == i with
  | none => simp
  | some r =>
    rw [hf] at h
    simp only [Option.map_some', ne_eq, Option.some.injEq] at h ⊢
    rcases markFold_status ops r with hs | hs | hs <;> rw [hs] <;> omega

/-! ### Claim theorems: catalog -/

/-- **C2**: Registering paths is idempotent per path: inserting an
already-known path inserts no record, leaves the catalog (hence the existing
record's id, path and status) unchanged, and is not counted as newly
inserted; registering the same sequence of paths twice leaves the catalog
identical to registering it once, with zero new records the second time. -/
theorem C2_register_idempotent (c : Catalog) (p : String) (ps : List String)
    (h : hasPath c p = true) :
    insertImage c p = (c, false)
    ∧ insert_images_batch c [p] = (c, 0)
    ∧ insert_images_batch (insert_images_batch c ps).1 ps
        = ((insert_images_batch c ps).1, 0) := by
  refine ⟨insertImage_of_hasPath h, ?_, ?_⟩
  · exact insert_images_batch_of_present [p] c (by simpa using h)
  · exact insert_images_batch_of_present ps _ fun q hq =>
      hasPath_insert_images_batch_of_mem ps c q hq

theorem C2_register_idempotent_witness :
    hasPath ⟨[⟨0, "a", 0⟩], 1⟩ "a" = true
    ∧ (insertImage ⟨[⟨0, "a", 0⟩], 1⟩ "a" = (⟨[⟨0, "a", 0⟩], 1⟩, false)
       ∧ insert_images_batch ⟨[⟨0, "a", 0⟩], 1⟩ ["a"] = (⟨[⟨0, "a", 0⟩], 1⟩, 0)
       ∧ insert_images_batch (insert_images_batch ⟨[⟨0, "a", 0⟩], 1⟩ ["b"]).1 ["b"]
           = ((insert_images_batch ⟨[⟨0, "a", 0⟩], 1⟩ ["b"]).1, 0)) :=
  ⟨by decide, C2_register_idempotent ⟨[⟨0, "a", 0⟩], 1⟩ "a" ["b"] (by decide)⟩

/-- **C3** (counterexample to the claim as stated): the mark operations are
unconditional `UPDATE`s, so a record that has reached Processed (status 1)
is moved to Failed (status 2) by a later `mark_as_failed` call — a terminal
record can change status again. -/
theorem C3_status_forward_counterexample :
    statusOf ⟨[⟨0, "a", 1⟩], 1⟩ 0 = some 1
    ∧ statusOf (runMarks ⟨[⟨0, "a", 1⟩], 1⟩ [.failed 0]) 0 = some 2 :=
  ⟨rfl, rfl⟩

/-- **C3** (amended): for a catalog whose statuses are among
{Pending = 0, Processed = 1, Failed = 2}, any sequence of `mark_as_processed`
and `mark_as_failed` calls (a) keeps every status in that set, (b) never
returns a non-Pending record to Pending, and (c) re-marking with the same
mark is a no-op; however, because the updates are unconditional, a Processed
record is moved to Failed by `mark_as_failed` and a Failed record is moved to
Processed by `mark_as_processed` (see the counterexample), so terminal
statuses are stable only under re-marking with the same mark. -/
theorem C3_status_forward_amended (c : Catalog) (ops : List MarkOp)
    (hwf : ∀ r ∈ c.records, r.status = 0 ∨ r.status = 1 ∨ r.status = 2) :
    (∀ r ∈ (runMarks c ops).records,
        r.status = 0 ∨ r.status = 1 ∨ r.status = 2)
    ∧ (∀ i, statusOf c i ≠ some 0 → statusOf (runMarks c ops) i ≠ some 0)
    ∧ (∀ op, applyMark (applyMark c op) op = applyMark c op) := by
  refine ⟨?_, fun i h => statusOf_runMarks_ne_pending c ops i h,
    fun op => applyMark_applyMark c op⟩
  intro r hr
  rw [runMarks_records] at hr
  obtain ⟨r0, hr0, rfl⟩ := List.mem_map.1 hr
  rcases markFold_status ops r0 with h | h | h
  · rw [h]
    exact hwf r0 hr0
  · exact Or.inr (Or.inl h)
  · exact Or.inr (Or.inr h)

theorem C3_status_forward_amended_witness :
    (∀ r ∈ (⟨[⟨0, "a", 0⟩], 1⟩ : Catalog).records,
        r.status = 0 ∨ r.status = 1 ∨ r.status = 2)
    ∧ ((∀ r ∈ (runMarks ⟨[⟨0, "a", 0⟩], 1⟩ [.processed [0], .failed 1]).records,
          r.status = 0 ∨ r.status = 1 ∨ r.status = 2)
       ∧ (∀ i, statusOf ⟨[⟨0, "a", 0⟩], 1⟩ i ≠ some 0 →
            statusOf (runMarks ⟨[⟨0, "a", 0⟩], 1⟩ [.processed [0], .failed 1]) i ≠ some 0)
       ∧ (∀ op, applyMark (applyMark ⟨[⟨0, "a", 0⟩], 1⟩ op) op
            = applyMark ⟨[⟨0, "a", 0⟩], 1⟩ op)) :=
  ⟨by decide, C3_status_forward_amended ⟨[⟨0, "a", 0⟩], 1⟩
    [.processed [0], .failed 1] (by decide)⟩

/-! ### Vector algebra over ℚ -/

theorem dot_cons (a b : ℚ) (u v : List ℚ) :
    dot (a :: u) (b :: v) = a * b + dot u v := by
  simp [dot]

theorem dot_self_nonneg (u : List ℚ) : 0 ≤ dot u u := by
  induction u with
  | nil => simp [dot]
  | cons a u ih =>
    rw [dot_cons]
    have := mul_self_nonneg a
    linarith

theorem dot_sub_expand (u v : List ℚ) (h : u.length = v.length) :
    dot (List.zipWith (· - ·) u v) (List.zipWith (· - ·) u v)
      = dot u u - 2 * dot u v + dot v v := by
  induction u generalizing v with
  | nil =>
    cases v with
    | nil => simp [dot]
    | cons b v => simp at h
  | cons a u ih =>
    cases v with
    | nil => simp at h
    | cons b v =>
      simp only [List.zipWith_cons_cons]
      rw [dot_cons, dot_cons, dot_cons, dot_cons, ih v (by simpa using h)]
      ring

theorem eq_of_dot_sub_self_eq_zero (u v : List ℚ) (h : u.length = v.length)
    (h0 : dot (List.zipWith (· - ·) u v) (List.zipWith (· - ·) u v) = 0) :
    u = v := by
  induction u generalizing v with
  | nil =>
    cases v with
    | nil => rfl
    | cons b v => simp at h
  | cons a u ih =>
    cases v with
    | nil => simp at h
    | cons b v =>
      simp only [List.zipWith_cons_cons] at h0
      rw [dot_cons] at h0
      have h1 : 0 ≤ (a - b) * (a - b) := mul_self_nonneg _
      have h2 : 0 ≤ dot (List.zipWith (· - ·) u v) (List.zipWith (· - ·) u v) :=
        dot_self_nonneg _
      have h4 : a = b := by
        have h3 : (a - b) * (a - b) = 0 := by linarith
        have := mul_self_eq_zero.mp h3
        linarith
      have h5 := ih v (by simpa using h) (by linarith)
      rw [h4, h5]

theorem dot_le_one (u v : List ℚ) (h : u.length = v.length)
    (hu : dot u u = 1) (hv : dot v v = 1) : dot u v ≤ 1 := by
  have h0 := dot_self_nonneg (List.zipWith (· - ·) u v)
  rw [dot_sub_expand u v h] at h0
  linarith

theorem eq_of_dot_eq_one (u v : List ℚ) (h : u.length = v.length)
    (hu : dot u u = 1) (hv : dot v v = 1) (hd : dot u v = 1) : u = v := by
  apply eq_of_dot_sub_self_eq_zero u v h
  rw [dot_sub_expand u v h, hu, hv, hd]
  ring

/-! ### The FAISS ranking -/

theorem rankLE_iff (a b : Nat × ℚ) : rankLE a b = true ↔ RankRel a b := by
  simp [rankLE, RankRel]

theorem RankRel.refl (a : Nat × ℚ) : RankRel a a :=
  Or.inr ⟨rfl, le_refl _⟩

theorem rankLE_trans : ∀ a b c : Nat × ℚ, rankLE a b → rankLE b c → rankLE a c := by
  intro a b c hab hbc
  rw [rankLE_iff] at *
  rcases hab with h | ⟨h1, h2⟩ <;> rcases hbc with g | ⟨g1, g2⟩
  · exact Or.inl (lt_trans g h)
  · exact Or.inl (by rw [← g1]; exact h)
  · exact Or.inl (by rw [h1]; exact g)
  · exact Or.inr ⟨h1.trans g1, le_trans h2 g2⟩

theorem rankLE_total : ∀ a b : Nat × ℚ, rankLE a b || rankLE b a := by
  intro a b
  rw [Bool.or_eq_true, rankLE_iff, rankLE_iff]
  rcases lt_trichotomy a.2 b.2 with h | h | h
  · exact Or.inr (Or.inl h)
  · rcases le_total a.1 b.1 with g | g
    · exact Or.inl (Or.inr ⟨h, g⟩)
    · exact Or.inr (Or.inr ⟨h.symm, g⟩)
  · exact Or.inl (Or.inl h)

theorem filterMap_eq_map_of_forall {α β : Type} (l : List α) (f : α → Option β)
    (g : α → β) (h : ∀ a ∈ l, f a = some (g a)) : l.filterMap f = l.map g := by
  induction l with
  | nil => rfl
  | cons a l ih =>
    rw [List.filterMap_cons, h a (by simp), List.map_cons,
      ih fun x hx => h x (by simp [hx])]

theorem faissSearch_mem (vecs : List (List ℚ)) (q : List ℚ) (k : Nat)
    (p : Nat × ℚ) (hp : p ∈ faissSearch vecs q k) :
    p.1 < vecs.length ∧ p.2 = dot q (vecs.getD p.1 []) := by
  unfold faissSearch at hp
  have h1 := List.mem_mergeSort.1 (List.mem_of_mem_take hp)
  obtain ⟨i, s⟩ := p
  rw [List.mk_mem_enum_iff_getElem?, List.getElem?_map] at h1
  obtain ⟨v, hv, hs⟩ := Option.map_eq_some'.1 h1
  have hi : i < vecs.length := (List.getElem?_eq_some.1 hv).1
  refine ⟨hi, ?_⟩
  have : vecs.getD i [] = vecs[i] := by
    rw [List.getD_eq_getElem?_getD, List.getElem?_eq_getElem hi]
    rfl
  rw [this]
  have hv' : vecs[i] = v := by
    have := (List.getElem?_eq_some.1 hv).2
    exact this
  rw [hv', ← hs]

theorem faissSearch_sorted (vecs : List (List ℚ)) (q : List ℚ) (k : Nat) :
    List.Pairwise RankRel (faissSearch vecs q k) := by
  unfold faissSearch
  have h := List.sorted_mergeSort rankLE_trans rankLE_total
    ((vecs.map fun v => dot q v).enum)
  have h2 : List.Pairwise RankRel
      (((vecs.map fun v => dot q v).enum).mergeSort rankLE) :=
    h.imp fun hab => (rankLE_iff _ _).1 hab
  exact h2.sublist (List.take_sublist _ _)

theorem faissSearch_complete (vecs : List (List ℚ)) (q : List ℚ) (k : Nat) :
    ∃ rest, List.Perm (faissSearch vecs q k ++ rest) ((vecs.map fun v => dot q v).enum)
      ∧ ∀ a ∈ faissSearch vecs q k, ∀ b ∈ rest, RankRel a b := by
  refine ⟨(((vecs.map fun v => dot q v).enum).mergeSort rankLE).drop k, ?_, ?_⟩
  · unfold faissSearch
    rw [List.take_append_drop]
    exact List.mergeSort_perm _ _
  · intro a ha b hb
    have h := List.sorted_mergeSort rankLE_trans rankLE_total
      ((vecs.map fun v => dot q v).enum)
    have h2 : List.Pairwise RankRel
        (((vecs.map fun v => dot q v).enum).mergeSort rankLE) :=
      h.imp fun hab => (rankLE_iff _ _).1 hab
    rw [← List.take_append_drop k
      (((vecs.map fun v => dot q v).enum).mergeSort rankLE)] at h2
    exact (List.pairwise_append.1 h2).2.2 a ha b hb

theorem faissSearch_length (vecs : List (List ℚ)) (q : List ℚ) (k : Nat) :
    (faissSearch vecs q k).length = min k vecs.length := by
  unfold faissSearch
  rw [List.length_take, List.length_mergeSort, List.enum_length, List.length_map]

theorem search_by_vector_eq_map (ix : SearchIndex) (q : List ℚ) (k : Nat)
    (hlen : ix.paths.length = ix.vecs.length) :
    search_by_vector (some ix) q k
      = (faissSearch ix.vecs q (min k ix.vecs.length)).map
          fun p => (ix.paths.getD p.1 "", p.2) := by
  show List.filterMap _ _ = _
  apply filterMap_eq_map_of_forall
  intro p hp
  rw [if_pos (by rw [hlen]; exact (faissSearch_mem _ _ _ p hp).1)]

/-! ### Claim theorems: search -/

/-- **C5**: for every built index holding `n` vectors (parallel path list,
as `build_index` produces) and every query vector, `search_by_vector` with
any `k` returns an ordered list of `(path, score)` pairs of length exactly
`min k n`, sorted by descending score with exact-score ties broken by row
order (first-inserted wins), scoring each row by inner product and keeping
a true top-k; in particular `k > n` yields exactly `n` results and is not
an error. -/
theorem C5_search_topk_contract (ix : SearchIndex) (q : List ℚ) (k : Nat)
    (hlen : ix.paths.length = ix.vecs.length) : C5Prop ix q k := by
  have hmap := search_by_vector_eq_map ix q k hlen
  refine ⟨?_, hmap, faissSearch_sorted _ _ _,
    (fun p hp => faissSearch_mem _ _ _ p hp), faissSearch_complete _ _ _, ?_⟩
  · rw [hmap, List.length_map, faissSearch_length]
    omega
  · rw [hmap, List.pairwise_map]
    refine (faissSearch_sorted _ _ _).imp fun h => ?_
    rcases h with h | ⟨h1, _⟩
    · exact le_of_lt h
    · exact le_of_eq h1.symm

theorem C5_search_topk_contract_witness :
    (SearchIndex.paths ⟨["a"], [[1]]⟩).length = (SearchIndex.vecs ⟨["a"], [[1]]⟩).length
    ∧ C5Prop ⟨["a"], [[1]]⟩ [1] 5 :=
  ⟨by decide, C5_search_topk_contract ⟨["a"], [[1]]⟩ [1] 5 (by decide)⟩

/-- **C8**: `search` (search-by-image) returns the empty result list, not an
error, when the index is absent, when the index is empty, and when the
Embedding Provider fails to produce an embedding for the query image; the
returned value is the same empty list in all three cases, so callers cannot
distinguish "no results" from "nothing to search". -/
theorem C8_search_empty_cases (index : Option SearchIndex)
    (embed : String → Option (List ℚ)) (p : String) (k : Nat)
    (h : index = none ∨ (∃ ix, index = some ix ∧ ix.vecs = []) ∨ embed p = none) :
    search index embed p k = [] := by
  rcases h with rfl | ⟨ix, rfl, hvecs⟩ | hembed
  · rfl
  · show (match embed p with
      | none => []
      | some q => search_by_vector (some ix) q k) = []
    cases embed p with
    | none => rfl
    | some q =>
      show List.filterMap _ (faissSearch ix.vecs q (min k ix.vecs.length)) = []
      rw [hvecs]
      simp [faissSearch]
  · cases index with
    | none => rfl
    | some ix =>
      show (match embed p with
        | none => []
        | some q => search_by_vector (some ix) q k) = []
      rw [hembed]

theorem C8_search_empty_cases_witness :
    ((some ⟨[], []⟩ : Option SearchIndex) = none
      ∨ (∃ ix, (some ⟨[], []⟩ : Option SearchIndex) = some ix ∧ ix.vecs = [])
      ∨ (fun _ : String => (none : Option (List ℚ))) "q.png" = none)
    ∧ search (some ⟨[], []⟩) (fun _ => none) "q.png" 3 = [] :=
  ⟨Or.inr (Or.inl ⟨⟨[], []⟩, rfl, rfl⟩),
   C8_search_empty_cases (some ⟨[], []⟩) (fun _ => none) "q.png" 3
     (Or.inr (Or.inl ⟨⟨[], []⟩, rfl, rfl⟩))⟩

theorem self_search_head (ix : SearchIndex) (d : Nat)
    (hlen : ix.paths.length = ix.vecs.length)
    (hdim : ∀ v ∈ ix.vecs, v.length = d)
    (hunit : ∀ v ∈ ix.vecs, dot v v = 1)
    (j : Nat) (hj : j < ix.vecs.length) (k : Nat) (hk : 1 ≤ k) :
    ∃ i0, i0 ≤ j
      ∧ ix.vecs.getD i0 [] = ix.vecs.getD j []
      ∧ (∀ i < i0, ix.vecs.getD i [] ≠ ix.vecs.getD j [])
      ∧ (search_by_vector (some ix) (ix.vecs.getD j []) k).head?
          = some (ix.paths.getD i0 "", 1) := by
  have hgetD : ∀ i (h : i < ix.vecs.length), ix.vecs.getD i [] = ix.vecs[i] := by
    intro i h
    rw [List.getD_eq_getElem?_getD, List.getElem?_eq_getElem h]
    rfl
  set q := ix.vecs.getD j [] with hqdef
  have hq : q = ix.vecs[j] := hgetD j hj
  have hqmem : q ∈ ix.vecs := by
    rw [hq]
    exact List.getElem_mem hj
  have hqq : dot q q = 1 := hunit q hqmem
  -- every (row, score) pair of the scored list
  have hscored : ∀ i (h : i < ix.vecs.length),
      (i, dot q ix.vecs[i]) ∈ (ix.vecs.map fun v => dot q v).enum := by
    intro i h
    rw [List.mk_mem_enum_iff_getElem?, List.getElem?_map, List.getElem?_eq_getElem h]
    rfl
  -- the ranking is nonempty
  have hklen : (faissSearch ix.vecs q (min k ix.vecs.length)).length
      = min k ix.vecs.length := by
    rw [faissSearch_length]
    omega
  have hne : faissSearch ix.vecs q (min k ix.vecs.length) ≠ [] := by
    intro hcon
    rw [hcon] at hklen
    simp at hklen
    omega
  obtain ⟨hd, tl, hranked⟩ := List.exists_cons_of_ne_nil hne
  have hhdmem : hd ∈ faissSearch ix.vecs q (min k ix.vecs.length) := by
    rw [hranked]
    exact List.mem_cons_self hd tl
  -- the head ranks no worse than every scored row
  have hrankall : ∀ b ∈ (ix.vecs.map fun v => dot q v).enum, RankRel hd b := by
    obtain ⟨rest, hperm, hcross⟩ := faissSearch_complete ix.vecs q (min k ix.vecs.length)
    intro b hb
    have hb2 : b ∈ faissSearch ix.vecs q (min k ix.vecs.length) ++ rest :=
      hperm.symm.subset hb
    rcases List.mem_append.1 hb2 with hb3 | hb3
    · rw [hranked] at hb3
      rcases List.mem_cons.1 hb3 with rfl | hb4
      · exact RankRel.refl b
      · have hsorted := faissSearch_sorted ix.vecs q (min k ix.vecs.length)
        rw [hranked] at hsorted
        exact (List.pairwise_cons.1 hsorted).1 b hb4
    · exact hcross hd hhdmem b hb3
  -- facts about the head row
  obtain ⟨hhd1, hhd2⟩ := faissSearch_mem ix.vecs q (min k ix.vecs.length) hd hhdmem
  have hhd2' : hd.2 = dot q ix.vecs[hd.1] := by rw [hhd2, hgetD hd.1 hhd1]
  have hwmem : ix.vecs[hd.1] ∈ ix.vecs := List.getElem_mem hhd1
  have hlenqw : q.length = (ix.vecs[hd.1]).length := by
    rw [hdim q hqmem, hdim _ hwmem]
  have hhdle : hd.2 ≤ 1 := by
    rw [hhd2']
    exact dot_le_one q _ hlenqw hqq (hunit _ hwmem)
  -- ranking against row j, whose score is 1
  have hj1 : (j, (1 : ℚ)) ∈ (ix.vecs.map fun v => dot q v).enum := by
    have := hscored j hj
    rw [← hq, hqq] at this
    exact this
  have hdj := hrankall (j, 1) hj1
  rcases hdj with hcon | ⟨hone, hlej⟩
  · exact absurd hcon (by simpa using hhdle)
  have hone' : hd.2 = 1 := hone
  -- the head's vector equals the query
  have hveq : q = ix.vecs[hd.1] := by
    apply eq_of_dot_eq_one q _ hlenqw hqq (hunit _ hwmem)
    rw [← hhd2', hone']
  refine ⟨hd.1, hlej, ?_, ?_, ?_⟩
  · rw [hgetD hd.1 hhd1, ← hveq]
  · intro i hi hcon
    have hi' : i < ix.vecs.length := by omega
    have hieq : dot q ix.vecs[i] = 1 := by
      rw [← hgetD i hi', hcon]
      exact hqq
    have := hrankall (i, 1) (by
      have := hscored i hi'
      rw [hieq] at this
      exact this)
    rcases this with hcon2 | ⟨_, hcon2⟩
    · exact absurd hcon2 (by simpa using hhdle)
    · omega
  · rw [search_by_vector_eq_map ix q k hlen, hranked, List.map_cons]
    show some (ix.paths.getD hd.1 "", hd.2) = _
    rw [hone']

/-- **C4** (counterexample to the claim as stated): on a freshly built
two-image index whose rows store the identical unit vector, querying with
image 1's own stored vector returns image 0 (path "a") as the first result,
not the queried image (path "b") — ties at score 1.0 go to the
first-inserted row, so "returns that image itself" fails. -/
theorem C4_self_search_counterexample :
    (search_by_vector (some ⟨["a", "b"], [[1], [1]]⟩)
        ((⟨["a", "b"], [[1], [1]]⟩ : SearchIndex).vecs.getD 1 []) 1).head?
      = some ("a", 1)
    ∧ ("a" : String) ≠ "b"
    ∧ (∀ v ∈ (⟨["a", "b"], [[1], [1]]⟩ : SearchIndex).vecs, dot v v = 1) := by
  refine ⟨?_, by decide, by norm_num [dot]⟩
  obtain ⟨i0, hle, heq, hmin, hhead⟩ :=
    self_search_head ⟨["a", "b"], [[1], [1]]⟩ 1 (by decide) (by decide)
      (by norm_num [dot]) 1 (by decide) 1 (by decide)
  have hi0 : i0 = 0 := by
    by_contra hne
    have h1 : i0 = 1 := by omega
    have h0 : (0 : Nat) < i0 := by omega
    exact hmin 0 h0 rfl
  rw [hi0] at hhead
  exact hhead

/-- **C4** (amended): for every freshly built non-empty index whose stored
vectors are unit length (as the spec's data model requires), searching with
image `j`'s own stored vector and `k ≥ 1` puts score 1.0 at the head of the
results, attributed to the **first-inserted row whose stored vector equals
the query**; this is image `j` itself whenever no other row stores the
identical vector (with duplicate vectors, the earlier row wins the tie, see
the counterexample). -/
theorem C4_self_search_amended (ix : SearchIndex) (d : Nat)
    (hlen : ix.paths.length = ix.vecs.length)
    (hdim : ∀ v ∈ ix.vecs, v.length = d)
    (hunit : ∀ v ∈ ix.vecs, dot v v = 1)
    (j : Nat) (hj : j < ix.vecs.length) (k : Nat) (hk : 1 ≤ k) :
    C4Prop ix j k := by
  obtain ⟨i0, hle, heq, hmin, hhead⟩ := self_search_head ix d hlen hdim hunit j hj k hk
  refine ⟨i0, hle, heq, hmin, hhead, ?_⟩
  intro hdistinct
  have hi0 : i0 = j := by
    by_contra hne
    exact hdistinct i0 (by omega) hne heq
  rw [hi0] at hhead
  exact hhead

theorem C4_self_search_amended_witness :
    ((SearchIndex.paths ⟨["a", "b"], [[1, 0], [0, 1]]⟩).length
        = (SearchIndex.vecs ⟨["a", "b"], [[1, 0], [0, 1]]⟩).length
      ∧ (∀ v ∈ (SearchIndex.vecs ⟨["a", "b"], [[1, 0], [0, 1]]⟩), v.length = 2)
      ∧ (∀ v ∈ (SearchIndex.vecs ⟨["a", "b"], [[1, 0], [0, 1]]⟩), dot v v = 1)
      ∧ 1 < (SearchIndex.vecs ⟨["a", "b"], [[1, 0], [0, 1]]⟩).length
      ∧ 1 ≤ 1)
    ∧ C4Prop ⟨["a", "b"], [[1, 0], [0, 1]]⟩ 1 1 :=
  ⟨⟨by decide, by decide, by norm_num [dot], by decide, le_refl 1⟩,
   C4_self_search_amended ⟨["a", "b"], [[1, 0], [0, 1]]⟩ 2 (by decide) (by decide)
     (by norm_num [dot]) 1 (by decide) 1 (by decide)⟩

/-! ### Survivor selection lemmas -/

theorem pyMax_spec (key : Nat → Nat) (x : Nat) (xs : List Nat) :
    ∃ b, pyMax key (x :: xs) = some b
      ∧ b ∈ x :: xs
      ∧ (∀ y ∈ x :: xs, key y ≤ key b)
      ∧ ∃ l₁ l₂, x :: xs = l₁ ++ b :: l₂ ∧ ∀ y ∈ l₁, key y < key b := by
  induction xs generalizing x with
  | nil =>
    refine ⟨x, rfl, by simp, ?_, [], [], by simp, by simp⟩
    intro y hy
    rw [List.mem_singleton.1 hy]
  | cons a xs ih =>
    have hstep : pyMax key (x :: a :: xs)
        = pyMax key ((if key x < key a then a else x) :: xs) := rfl
    by_cases h : key x < key a
    · obtain ⟨b, hb, hmem, hbound, l₁, l₂, hsplit, hlt⟩ := ih a
      rw [if_pos h] at hstep
      refine ⟨b, hstep.trans hb, ?_, ?_, x :: l₁, l₂, ?_, ?_⟩
      · exact List.mem_cons_of_mem x hmem
      · intro y hy
        rcases List.mem_cons.1 hy with rfl | hy2
        · exact le_of_lt (lt_of_lt_of_le h (hbound a (List.mem_cons_self a xs)))
        · exact hbound y hy2
      · rw [List.cons_append, ← hsplit]
      · intro y hy
        rcases List.mem_cons.1 hy with rfl | hy2
        · exact lt_of_lt_of_le h (hbound a (List.mem_cons_self a xs))
        · exact hlt y hy2
    · obtain ⟨b, hb, hmem, hbound, l₁, l₂, hsplit, hlt⟩ := ih x
      rw [if_neg h] at hstep
      push_neg at h
      have hbound' : ∀ y ∈ x :: a :: xs, key y ≤ key b := by
        intro y hy
        rcases List.mem_cons.1 hy with rfl | hy2
        · exact hbound y (List.mem_cons_self y xs)
        rcases List.mem_cons.1 hy2 with rfl | hy3
        · exact le_trans h (hbound x (List.mem_cons_self x xs))
        · exact hbound y (List.mem_cons_of_mem x hy3)
      have hmem' : b ∈ x :: a :: xs := by
        rcases List.mem_cons.1 hmem with rfl | hy2
        · exact List.mem_cons_self b (a :: xs)
        · exact List.mem_cons_of_mem x (List.mem_cons_of_mem a hy2)
      cases l₁ with
      | nil =>
        rw [List.nil_append] at hsplit
        injection hsplit with h1 h2
        subst h1
        subst h2
        exact ⟨x, hstep.trans hb, hmem', hbound', [], a :: xs, by simp, by simp⟩
      | cons x' l₁' =>
        rw [List.cons_append] at hsplit
        injection hsplit with h1 h2
        subst h1
        subst h2
        have hxlt : key x < key b := hlt x (List.mem_cons_self x l₁')
        refine ⟨b, hstep.trans hb, hmem', hbound', x :: a :: l₁', l₂, by simp, ?_⟩
        intro y hy
        rcases List.mem_cons.1 hy with rfl | hy2
        · exact hxlt
        rcases List.mem_cons.1 hy2 with rfl | hy3
        · exact lt_of_le_of_lt h hxlt
        · exact hlt y (List.mem_cons_of_mem x hy3)

theorem survivorOf_spec (fs : String → Option Nat) (paths : List String)
    (g : List Nat) (hg : g ≠ []) :
    pyMax (sizeScore fs paths) g = some (survivorOf fs paths g)
    ∧ survivorOf fs paths g ∈ g
    ∧ (∀ i ∈ g, sizeScore fs paths i ≤ sizeScore fs paths (survivorOf fs paths g))
    ∧ ∃ l₁ l₂, g = l₁ ++ survivorOf fs paths g :: l₂
        ∧ ∀ i ∈ l₁, sizeScore fs paths i < sizeScore fs paths (survivorOf fs paths g) := by
  obtain ⟨x, xs, rfl⟩ := List.exists_cons_of_ne_nil hg
  obtain ⟨b, hb, hmem, hbound, l₁, l₂, hsplit, hlt⟩ := pyMax_spec (sizeScore fs paths) x xs
  have hsurv : survivorOf fs paths (x :: xs) = b := by
    rw [survivorOf, hb]
    rfl
  rw [hsurv]
  exact ⟨hb, hmem, hbound, l₁, l₂, hsplit, hlt⟩

theorem select_fold_char (fs : String → Option Nat) (paths : List String)
    (groups : List (List Nat)) (acc : Finset String × Finset String)
    (hne : ∀ g ∈ groups, g ≠ []) :
    groups.foldl (selStep fs paths) acc
      = (acc.1 ∪ (survivorPaths fs paths groups).toFinset,
         acc.2 ∪ (filteredMembers fs paths groups).toFinset) := by
  induction groups generalizing acc with
  | nil => simp [survivorPaths, filteredMembers]
  | cons g gs ih =>
    have hg := hne g (List.mem_cons_self g gs)
    obtain ⟨hpy, _, _, _⟩ := survivorOf_spec fs paths g hg
    have hstep : selStep fs paths acc g
        = (insert (paths.getD (survivorOf fs paths g) "") acc.1,
           acc.2 ∪ ((g.filter (· != survivorOf fs paths g)).map
             fun i => paths.getD i "").toFinset) := by
      rw [selStep, hpy]
    show gs.foldl (selStep fs paths) (selStep fs paths acc g) = _
    rw [hstep, ih _ fun g' hg' => hne g' (List.mem_cons_of_mem g hg')]
    have h1 : survivorPaths fs paths (g :: gs)
        = paths.getD (survivorOf fs paths g) "" :: survivorPaths fs paths gs := rfl
    have h2 : filteredMembers fs paths (g :: gs)
        = ((g.filter (· != survivorOf fs paths g)).map fun i => paths.getD i "")
            ++ filteredMembers fs paths gs := rfl
    rw [h1, h2]
    refine Prod.ext ?_ ?_
    · show insert _ acc.1 ∪ _ = acc.1 ∪ _
      ext y
      simp only [Finset.mem_union, Finset.mem_insert, List.toFinset_cons,
        List.mem_toFinset]
      tauto
    · show (acc.2 ∪ _) ∪ _ = acc.2 ∪ _
      rw [List.toFinset_append, Finset.union_assoc]

theorem select_best_eq (fs : String → Option Nat) (paths : List String)
    (groups : List (List Nat)) (hne : ∀ g ∈ groups, g ≠ []) :
    select_best_from_groups fs paths groups
      = some ((survivorPaths fs paths groups).toFinset,
              (filteredMembers fs paths groups).toFinset) := by
  have hall : groups.all (fun g => !g.isEmpty) = true := by
    rw [List.all_eq_true]
    intro g hg
    have := hne g hg
    cases g with
    | nil => exact absurd rfl this
    | cons x xs => rfl
  rw [select_best_from_groups, if_pos hall, select_fold_char fs paths groups _ hne]
  simp

/-! ### Claim theorems: survivor selection and filter list -/

/-- **C6** (counterexample to the claim as stated): with two group members
of equal (maximal) file size, the survivor is the first member of the
group's iteration order — here path "b" (member 0) — even though "a"
(member 1) is first in lexical path order; there is no lexical tie-break in
the code. -/
theorem C6_survivor_counterexample :
    select_best_from_groups (fun _ => some 5) ["b", "a"] [[0, 1]]
      = some ({"b"}, {"a"})
    ∧ sizeScore (fun _ => some 5) ["b", "a"] 0
        = sizeScore (fun _ => some 5) ["b", "a"] 1
    ∧ ("a" : String) < "b" := by
  refine ⟨by decide, rfl, ?_⟩
  simp only [String.lt_iff_toList_lt]
  decide

/-- **C6** (amended): for every duplicate group, selection chooses exactly
one survivor: the member with the largest on-disk file size, and when two or
more members share the maximal size, the one that comes **first in the
group's iteration order** (not path lexical order; see the counterexample);
every other member of the group is classified as filtered. -/
theorem C6_survivor_amended (fs : String → Option Nat) (paths : List String)
    (groups : List (List Nat)) (g : List Nat)
    (hne : ∀ g' ∈ groups, g' ≠ []) (hg : g ∈ groups) :
    C6Prop fs paths groups g := by
  obtain ⟨_, hmem, hbound, hsplit⟩ := survivorOf_spec fs paths g (hne g hg)
  refine ⟨_, _, select_best_eq fs paths groups hne, hmem, hbound, hsplit, ?_, ?_⟩
  · rw [List.mem_toFinset]
    exact List.mem_map_of_mem _ hg
  · intro i hi hineq
    rw [List.mem_toFinset]
    apply List.mem_flatten.2
    refine ⟨(g.filter (· != survivorOf fs paths g)).map fun j => paths.getD j "", ?_, ?_⟩
    · exact List.mem_map_of_mem _ hg
    · exact List.mem_map_of_mem _ (List.mem_filter.2 ⟨hi, by simpa using hineq⟩)

theorem C6_survivor_amended_witness :
    ((∀ g' ∈ [[0, 1]], g' ≠ ([] : List Nat)) ∧ [0, 1] ∈ [[0, 1]])
    ∧ C6Prop (fun _ => some 5) ["b", "a"] [[0, 1]] [0, 1] :=
  ⟨⟨by decide, by decide⟩,
   C6_survivor_amended (fun _ => some 5) ["b", "a"] [[0, 1]] [0, 1]
     (by decide) (by decide)⟩

/-- **C7** (counterexample to the claim as stated): when every member of a
group is missing on disk (all score 0), the survivor is still the group's
first member — here "a", whose file does not exist — so a missing file
**can** be selected as the group's survivor. -/
theorem C7_missing_survivor_counterexample :
    select_best_from_groups (fun _ => none) ["a", "b"] [[0, 1]]
      = some ({"a"}, {"b"})
    ∧ (fun _ : String => (none : Option Nat)) "a" = none :=
  ⟨by decide, rfl⟩

/-- **C7** (amended): during survivor selection, a group member whose file
no longer exists on disk is scored as size 0 rather than raising an error
and still appears in the outputs (its path is in the filtered set and in
the report's member listing for its group); it is never selected as the
group's survivor **provided some member of its group has positive size**
(when the whole group scores 0, the group's first member — possibly a
missing file — is selected; see the counterexample). -/
theorem C7_missing_member_amended (fs : String → Option Nat) (paths : List String)
    (groups : List (List Nat)) (g : List Nat) (i : Nat)
    (hne : ∀ g' ∈ groups, g' ≠ []) (hg : g ∈ groups) (hi : i ∈ g)
    (hmiss : fs (paths.getD i "") = none)
    (hpos : ∃ j ∈ g, 0 < sizeScore fs paths j) :
    C7Prop fs paths groups g i := by
  have hzero : sizeScore fs paths i = 0 := by
    rw [sizeScore, hmiss]
    rfl
  obtain ⟨_, hmem, hbound, _⟩ := survivorOf_spec fs paths g (hne g hg)
  obtain ⟨j, hj, hjpos⟩ := hpos
  have hsurvpos : 0 < sizeScore fs paths (survivorOf fs paths g) :=
    lt_of_lt_of_le hjpos (hbound j hj)
  have hne' : survivorOf fs paths g ≠ i := by
    intro hcon
    rw [hcon, hzero] at hsurvpos
    exact absurd hsurvpos (lt_irrefl 0)
  refine ⟨hzero, hne', ?_, ?_⟩
  · refine ⟨_, _, select_best_eq fs paths groups hne, ?_⟩
    rw [List.mem_toFinset]
    apply List.mem_flatten.2
    refine ⟨(g.filter (· != survivorOf fs paths g)).map fun j => paths.getD j "", ?_, ?_⟩
    · exact List.mem_map_of_mem _ hg
    · refine List.mem_map_of_mem _ (List.mem_filter.2 ⟨hi, ?_⟩)
      simpa using fun hcon => hne' hcon.symm
  · intro filtered retained
    obtain ⟨idx, hidx, hget⟩ := List.mem_iff_getElem.1 hg
    refine ⟨{ group_id := idx + 1, size := g.length,
              images := (g.mergeSort fun a b => decide (a ≤ b)).map
                fun j => paths.getD j "" }, ?_, ?_⟩
    · show _ ∈ List.map _ groups.enum
      refine List.mem_map.2 ⟨(idx, g), ?_, rfl⟩
      rw [List.mk_mem_enum_iff_getElem?, List.getElem?_eq_getElem hidx, hget]
    · exact List.mem_map_of_mem _ (List.mem_mergeSort.2 hi)

/-- **C10**: loading the persisted filter list when the filter-list file
does not exist returns the empty set rather than an error, so nothing is
treated as filtered. -/
theorem C10_load_filter_list_missing
    (readFile : String → Option (Option (List String))) (p : String)
    (h : readFile p = none) :
    load_filter_list readFile p = ∅ ∧ ∀ q, q ∉ load_filter_list readFile p := by
  have he : load_filter_list readFile p = ∅ := by
    simp [load_filter_list, h]
  refine ⟨he, fun q => ?_⟩
  rw [he]
  exact Finset.not_mem_empty q

theorem C10_load_filter_list_missing_witness :
    (fun _ : String => (none : Option (Option (List String)))) "filter_list.json" = none
    ∧ load_filter_list (fun _ => none) "filter_list.json" = ∅
    ∧ ∀ q, q ∉ load_filter_list (fun _ => none) "filter_list.json" :=
  ⟨rfl, (C10_load_filter_list_missing (fun _ => none) "filter_list.json" rfl).1,
   (C10_load_filter_list_missing (fun _ => none) "filter_list.json" rfl).2⟩

theorem getD_inj_of_nodup (paths : List String) (hpnodup : paths.Nodup)
    {i j : Nat} (hi : i < paths.length) (hj : j < paths.length)
    (he : paths.getD i "" = paths.getD j "") : i = j := by
  rw [List.getD_eq_getElem?_getD, List.getElem?_eq_getElem hi,
      List.getD_eq_getElem?_getD, List.getElem?_eq_getElem hj] at he
  exact (List.Nodup.getElem_inj_iff hpnodup).1 he

theorem sum_lengths_of_nonempty (groups : List (List Nat))
    (hne : ∀ g ∈ groups, g ≠ []) :
    groups.length + (groups.map fun g => g.length - 1).sum
      = (groups.map List.length).sum := by
  induction groups with
  | nil => rfl
  | cons g gs ih =>
    have h1 : 1 ≤ g.length := by
      cases g with
      | nil => exact absurd rfl (hne [] (List.mem_cons_self _ _))
      | cons x xs => simp
    have h2 := ih fun g' hg' => hne g' (List.mem_cons_of_mem _ hg')
    simp only [List.map_cons, List.sum_cons, List.length_cons]
    omega

/-- **C9**: after survivor selection over disjoint nonempty duplicate
groups (duplicate-free member lists, member ids within range, distinct
paths), the number of filtered paths plus the number of retained paths
equals the total number of images that appear in any group (one retained
per group, the rest filtered), and a path that belongs to no group appears
in neither the filtered nor the retained output. -/
theorem C9_selection_counts (fs : String → Option Nat) (paths : List String)
    (groups : List (List Nat))
    (hne : ∀ g ∈ groups, g ≠ [])
    (hnodup : ∀ g ∈ groups, g.Nodup)
    (hdisj : groups.Pairwise fun g h => ∀ i ∈ g, i ∉ h)
    (hbound : ∀ g ∈ groups, ∀ i ∈ g, i < paths.length)
    (hpnodup : paths.Nodup) :
    C9Prop fs paths groups := by
  refine ⟨_, _, select_best_eq fs paths groups hne, ?_, ?_, ?_⟩
  case refine_3 =>
    intro p hp
    constructor
    · rw [List.mem_toFinset]
      intro hcon
      obtain ⟨g, hg, rfl⟩ := List.mem_map.1 hcon
      obtain ⟨_, hmem, _, _⟩ := survivorOf_spec fs paths g (hne g hg)
      exact hp (List.mem_map_of_mem _ (List.mem_flatten.2 ⟨g, hg, hmem⟩))
    · rw [List.mem_toFinset]
      intro hcon
      obtain ⟨l, hl, hpl⟩ := List.mem_flatten.1 hcon
      obtain ⟨g, hg, rfl⟩ := List.mem_map.1 hl
      obtain ⟨i, hifil, rfl⟩ := List.mem_map.1 hpl
      have hig : i ∈ g := (List.mem_filter.1 hifil).1
      exact hp (List.mem_map_of_mem _ (List.mem_flatten.2 ⟨g, hg, hig⟩))
  case refine_1 =>
    have hnod : (survivorPaths fs paths groups).Nodup := by
      show List.Pairwise (fun a b => a ≠ b)
        (groups.map fun g => paths.getD (survivorOf fs paths g) "")
      rw [List.pairwise_map]
      refine List.Pairwise.imp_of_mem ?_ hdisj
      intro g h hg hh hdisjgh heq
      obtain ⟨_, hmemg, _, _⟩ := survivorOf_spec fs paths g (hne g hg)
      obtain ⟨_, hmemh, _, _⟩ := survivorOf_spec fs paths h (hne h hh)
      have := getD_inj_of_nodup paths hpnodup
        (hbound g hg _ hmemg) (hbound h hh _ hmemh) heq
      exact hdisjgh _ hmemg (this ▸ hmemh)
    rw [List.toFinset_card_of_nodup hnod, survivorPaths, List.length_map]
  case refine_2 =>
    have hnodF : (filteredMembers fs paths groups).Nodup := by
      rw [filteredMembers, List.nodup_flatten]
      constructor
      · intro l hl
        obtain ⟨g, hg, rfl⟩ := List.mem_map.1 hl
        refine List.Nodup.map_on ?_ ((hnodup g hg).filter _)
        intro x hx y hy he
        exact getD_inj_of_nodup paths hpnodup
          (hbound g hg x (List.mem_filter.1 hx).1)
          (hbound g hg y (List.mem_filter.1 hy).1) he
      · rw [List.pairwise_map]
        refine List.Pairwise.imp_of_mem ?_ hdisj
        intro g h hg hh hdisjgh
        intro p hpg hph
        obtain ⟨i, hifil, rfl⟩ := List.mem_map.1 hpg
        obtain ⟨j, hjfil, hji⟩ := List.mem_map.1 hph
        have hig : i ∈ g := (List.mem_filter.1 hifil).1
        have hjh : j ∈ h := (List.mem_filter.1 hjfil).1
        have := getD_inj_of_nodup paths hpnodup
          (hbound h hh j hjh) (hbound g hg i hig) hji
        exact hdisjgh i hig (this ▸ hjh)
    have hnodS : (survivorPaths fs paths groups).Nodup := by
      show List.Pairwise (fun a b => a ≠ b)
        (groups.map fun g => paths.getD (survivorOf fs paths g) "")
      rw [List.pairwise_map]
      refine List.Pairwise.imp_of_mem ?_ hdisj
      intro g h hg hh hdisjgh heq
      obtain ⟨_, hmemg, _, _⟩ := survivorOf_spec fs paths g (hne g hg)
      obtain ⟨_, hmemh, _, _⟩ := survivorOf_spec fs paths h (hne h hh)
      have := getD_inj_of_nodup paths hpnodup
        (hbound g hg _ hmemg) (hbound h hh _ hmemh) heq
      exact hdisjgh _ hmemg (this ▸ hmemh)
    rw [List.toFinset_card_of_nodup hnodF, List.toFinset_card_of_nodup hnodS]
    have hlenF : (filteredMembers fs paths groups).length
        = (groups.map fun g => g.length - 1).sum := by
      rw [filteredMembers, List.length_flatten, List.map_map]
      congr 1
      refine List.map_congr_left ?_
      intro g hg
      show ((g.filter (· != survivorOf fs paths g)).map
        fun i => paths.getD i "").length = g.length - 1
      rw [List.length_map, ← List.Nodup.erase_eq_filter (hnodup g hg)]
      obtain ⟨_, hmem, _, _⟩ := survivorOf_spec fs paths g (hne g hg)
      exact List.length_erase_of_mem hmem
    rw [hlenF, survivorPaths, List.length_map]
    rw [Nat.add_comm]
    exact sum_lengths_of_nonempty groups hne

theorem C9_selection_counts_witness :
    ((∀ g ∈ [[0, 1]], g ≠ ([] : List Nat))
      ∧ (∀ g ∈ [[0, 1]], List.Nodup g)
      ∧ List.Pairwise (fun g h => ∀ i ∈ g, i ∉ h) [[0, 1]]
      ∧ (∀ g ∈ [[0, 1]], ∀ i ∈ g, i < (["a", "b", "c"] : List String).length)
      ∧ (["a", "b", "c"] : List String).Nodup)
    ∧ C9Prop (fun _ => some 1) ["a", "b", "c"] [[0, 1]] :=
  ⟨⟨by decide, by decide, by decide, by decide, by decide⟩,
   C9_selection_counts (fun _ => some 1) ["a", "b", "c"] [[0, 1]]
     (by decide) (by decide) (by decide) (by decide) (by decide)⟩

theorem C7_missing_member_amended_witness :
    ((∀ g' ∈ [[0, 1]], g' ≠ ([] : List Nat))
      ∧ [0, 1] ∈ [[0, 1]]
      ∧ 1 ∈ [0, 1]
      ∧ (fun p => if p = "a" then some 5 else (none : Option Nat))
          ((["a", "b"] : List String).getD 1 "") = none
      ∧ ∃ j ∈ [0, 1],
          0 < sizeScore (fun p => if p = "a" then some 5 else none) ["a", "b"] j)
    ∧ C7Prop (fun p => if p = "a" then some 5 else none) ["a", "b"] [[0, 1]] [0, 1] 1 :=
  ⟨⟨by decide, by decide, by decide, by decide, by decide⟩,
   C7_missing_member_amended (fun p => if p = "a" then some 5 else none)
     ["a", "b"] [[0, 1]] [0, 1] 1
     (by decide) (by decide) (by decide) (by decide) (by decide)⟩

/-! ### Union-find merge lemmas -/

theorem link_size (self : Batteries.UnionFind) (x y : Fin self.size)
    (yroot : self.parent y = y) : (self.link x y yroot).size = self.size :=
  Batteries.UnionFind.linkAux_size

theorem union_size (self : Batteries.UnionFind) (x y : Fin self.size) :
    (self.union x y).size = self.size := by
  unfold Batteries.UnionFind.union
  split
  rename_i s1 r1 ex
  dsimp only
  rw [link_size, Batteries.UnionFind.find_size]
  exact r1

theorem ufInit_size (n : Nat) : (ufInit n).size = n := by
  induction n with
  | zero => rfl
  | succ n ih =>
    show ((ufInit n).push).size = n + 1
    show ((ufInit n).push).arr.size = n + 1
    rw [Batteries.UnionFind.arr_push, Array.size_push]
    exact congrArg (· + 1) ih

theorem ufInit_rootD (n : Nat) (x : Nat) : (ufInit n).rootD x = x := by
  induction n with
  | zero => exact Batteries.UnionFind.rootD_empty
  | succ n ih =>
    show ((ufInit n).push).rootD x = x
    rw [Batteries.UnionFind.root_push]
    exact ih

theorem unionEdges_size (E : List (Nat × Nat)) (uf : Batteries.UnionFind) :
    (unionEdges uf E).size = uf.size := by
  induction E generalizing uf with
  | nil => rfl
  | cons e E ih =>
    show (unionEdges (if h : e.1 < uf.size ∧ e.2 < uf.size
      then uf.union ⟨e.1, h.1⟩ ⟨e.2, h.2⟩ else uf) E).size = uf.size
    split
    · rw [ih, union_size]
    · exact ih uf

theorem equivJoin (R : Nat → Nat → Prop) (hR : Equivalence R) (u v : Nat) :
    Equivalence fun a b => R a b ∨ (R a u ∧ R v b) ∨ (R a v ∧ R u b) := by
  constructor
  · intro a
    exact Or.inl (hR.refl a)
  · intro a b h
    rcases h with h | ⟨h1, h2⟩ | ⟨h1, h2⟩
    · exact Or.inl (hR.symm h)
    · exact Or.inr (Or.inr ⟨hR.symm h2, hR.symm h1⟩)
    · exact Or.inr (Or.inl ⟨hR.symm h2, hR.symm h1⟩)
  · intro a b c hab hbc
    rcases hab with h | ⟨h1, h2⟩ | ⟨h1, h2⟩ <;>
      rcases hbc with g | ⟨g1, g2⟩ | ⟨g1, g2⟩
    · exact Or.inl (hR.trans h g)
    · exact Or.inr (Or.inl ⟨hR.trans h g1, g2⟩)
    · exact Or.inr (Or.inr ⟨hR.trans h g1, g2⟩)
    · exact Or.inr (Or.inl ⟨h1, hR.trans h2 g⟩)
    · exact Or.inr (Or.inl ⟨h1, g2⟩)
    · exact Or.inl (hR.trans h1 g2)
    · exact Or.inr (Or.inr ⟨h1, hR.trans h2 g⟩)
    · exact Or.inl (hR.trans h1 g2)
    · exact Or.inr (Or.inr ⟨h1, g2⟩)

theorem eqvGen_of_imp {r s : Nat → Nat → Prop}
    (h : ∀ a b, r a b → Relation.EqvGen s a b) :
    ∀ a b, Relation.EqvGen r a b → Relation.EqvGen s a b := by
  intro a b hr
  exact (Equivalence.eqvGen_iff (Relation.EqvGen.is_equivalence s)).1
    (Relation.EqvGen.mono h hr)

theorem eqvGen_join_step (R : Nat → Nat → Prop) (hR : Equivalence R)
    (u v : Nat) (E : List (Nat × Nat)) (a b : Nat) :
    Relation.EqvGen (fun x y =>
        (R x y ∨ (R x u ∧ R v y) ∨ (R x v ∧ R u y)) ∨ (x, y) ∈ E) a b
      ↔ Relation.EqvGen (fun x y => R x y ∨ (x, y) ∈ (u, v) :: E) a b := by
  constructor
  · apply eqvGen_of_imp _ a b
    intro x y hxy
    have hedge : Relation.EqvGen
        (fun x y => R x y ∨ (x, y) ∈ (u, v) :: E) u v :=
      Relation.EqvGen.rel _ _ (Or.inr (List.mem_cons_self _ _))
    rcases hxy with (h | ⟨h1, h2⟩ | ⟨h1, h2⟩) | h
    · exact Relation.EqvGen.rel _ _ (Or.inl h)
    · refine Relation.EqvGen.trans _ _ _ (Relation.EqvGen.rel _ _ (Or.inl h1)) ?_
      exact Relation.EqvGen.trans _ _ _ hedge (Relation.EqvGen.rel _ _ (Or.inl h2))
    · refine Relation.EqvGen.trans _ _ _ (Relation.EqvGen.rel _ _ (Or.inl h1)) ?_
      refine Relation.EqvGen.trans _ _ _ (Relation.EqvGen.symm _ _ hedge)
        (Relation.EqvGen.rel _ _ (Or.inl h2))
    · exact Relation.EqvGen.rel _ _ (Or.inr (List.mem_cons_of_mem _ h))
  · apply eqvGen_of_imp _ a b
    intro x y hxy
    rcases hxy with h | h
    · exact Relation.EqvGen.rel _ _ (Or.inl (Or.inl h))
    · rcases List.mem_cons.1 h with heq | h2
      · have hx : x = u := congrArg Prod.fst heq
        have hy : y = v := congrArg Prod.snd heq
        refine Relation.EqvGen.rel _ _ (Or.inl (Or.inr (Or.inl ⟨?_, ?_⟩)))
        · rw [hx]
          exact hR.refl u
        · rw [hy]
          exact hR.refl v
      · exact Relation.EqvGen.rel _ _ (Or.inr h2)

theorem equiv_unionEdges (E : List (Nat × Nat)) (uf : Batteries.UnionFind)
    (R : Nat → Nat → Prop) (hR : Equivalence R)
    (hrep : ∀ a b, uf.Equiv a b ↔ R a b)
    (hE : ∀ e ∈ E, e.1 < uf.size ∧ e.2 < uf.size) (a b : Nat) :
    (unionEdges uf E).Equiv a b
      ↔ Relation.EqvGen (fun x y => R x y ∨ (x, y) ∈ E) a b := by
  induction E generalizing uf R with
  | nil =>
    show uf.Equiv a b ↔ _
    rw [hrep]
    constructor
    · intro h
      exact Relation.EqvGen.rel a b (Or.inl h)
    · intro h
      refine (Equivalence.eqvGen_iff hR).1 (Relation.EqvGen.mono ?_ h)
      intro x y hxy
      rcases hxy with h2 | h2
      · exact h2
      · cases h2
  | cons e E ih =>
    obtain ⟨u, v⟩ := e
    have he := hE (u, v) (List.mem_cons_self _ _)
    have hcond : u < uf.size ∧ v < uf.size := ⟨he.1, he.2⟩
    have hufstep : unionEdges uf ((u, v) :: E)
        = unionEdges (uf.union ⟨u, hcond.1⟩ ⟨v, hcond.2⟩) E := by
      show unionEdges (if h : u < uf.size ∧ v < uf.size
        then uf.union ⟨u, h.1⟩ ⟨v, h.2⟩ else uf) E = _
      rw [dif_pos hcond]
    rw [hufstep]
    rw [ih (uf.union ⟨u, hcond.1⟩ ⟨v, hcond.2⟩)
      (fun x y => R x y ∨ (R x u ∧ R v y) ∨ (R x v ∧ R u y))
      (equivJoin R hR u v)
      (fun x y => by
        rw [Batteries.UnionFind.equiv_union]
        simp only [hrep])
      (fun e' he' => by
        rw [union_size]
        exact hE e' (List.mem_cons_of_mem _ he'))]
    exact eqvGen_join_step R hR u v E a b

theorem mergeUF_equiv (n : Nat) (E : List (Nat × Nat))
    (hE : QualifyingEdges n E) (a b : Nat) :
    (mergeUF n E).Equiv a b ↔ (a = b ∨ Connected E a b) := by
  rw [mergeUF, equiv_unionEdges E (ufInit n) Eq eq_equivalence
    (fun x y => by
      show (ufInit n).rootD x = (ufInit n).rootD y ↔ x = y
      rw [ufInit_rootD, ufInit_rootD])
    (fun e he => by
      rw [ufInit_size]
      exact ⟨(hE e he).1, (hE e he).2.1⟩)]
  constructor
  · intro h
    by_cases hab : a = b
    · exact Or.inl hab
    refine Or.inr ?_
    refine eqvGen_of_imp ?_ a b h
    intro x y hxy
    rcases hxy with rfl | h2
    · exact Relation.EqvGen.refl x
    · exact Relation.EqvGen.rel _ _ h2
  · intro h
    rcases h with rfl | h
    · exact Relation.EqvGen.refl a
    refine Relation.EqvGen.mono ?_ h
    intro x y hxy
    exact Or.inr hxy

theorem dictKeys_go_nodup (l : List Nat) (acc : List Nat) (hacc : acc.Nodup) :
    (l.foldl (fun acc r => if r ∈ acc then acc else acc ++ [r]) acc).Nodup := by
  induction l generalizing acc with
  | nil => exact hacc
  | cons r l ih =>
    show (l.foldl _ (if r ∈ acc then acc else acc ++ [r])).Nodup
    by_cases h : r ∈ acc
    · rw [if_pos h]
      exact ih acc hacc
    · rw [if_neg h]
      refine ih _ ?_
      rw [List.nodup_append]
      refine ⟨hacc, List.nodup_singleton r, ?_⟩
      intro a ha har
      rw [List.mem_singleton.1 har] at ha
      exact h ha

theorem dictKeys_go_mem (l : List Nat) (acc : List Nat) (x : Nat) :
    x ∈ l.foldl (fun acc r => if r ∈ acc then acc else acc ++ [r]) acc
      ↔ x ∈ acc ∨ x ∈ l := by
  induction l generalizing acc with
  | nil => simp
  | cons r l ih =>
    show x ∈ l.foldl _ (if r ∈ acc then acc else acc ++ [r]) ↔ _
    by_cases h : r ∈ acc
    · rw [if_pos h, ih]
      constructor
      · rintro (hx | hx)
        · exact Or.inl hx
        · exact Or.inr (List.mem_cons_of_mem r hx)
      · rintro (hx | hx)
        · exact Or.inl hx
        · rcases List.mem_cons.1 hx with rfl | hx2
          · exact Or.inl h
          · exact Or.inr hx2
    · rw [if_neg h, ih]
      constructor
      · rintro (hx | hx)
        · rcases List.mem_append.1 hx with hx2 | hx2
          · exact Or.inl hx2
          · exact Or.inr (List.mem_cons.2 (Or.inl (List.mem_singleton.1 hx2)))
        · exact Or.inr (List.mem_cons_of_mem r hx)
      · rintro (hx | hx)
        · exact Or.inl (List.mem_append.2 (Or.inl hx))
        · rcases List.mem_cons.1 hx with rfl | hx2
          · exact Or.inl (List.mem_append.2 (Or.inr (List.mem_singleton.2 rfl)))
          · exact Or.inr hx2

theorem dictKeys_nodup (l : List Nat) : (dictKeys l).Nodup :=
  dictKeys_go_nodup l [] List.nodup_nil

theorem mem_dictKeys (l : List Nat) (x : Nat) : x ∈ dictKeys l ↔ x ∈ l := by
  rw [dictKeys, dictKeys_go_mem]
  simp

theorem mem_classOf (uf : Batteries.UnionFind) (n r i : Nat) :
    i ∈ classOf uf n r ↔ i < n ∧ uf.rootD i = r := by
  rw [classOf, List.mem_filter, List.mem_range, decide_eq_true_iff]

theorem classOf_nodup (uf : Batteries.UnionFind) (n r : Nat) :
    (classOf uf n r).Nodup :=
  (List.nodup_range n).filter _

theorem one_lt_length_of_two_mem {l : List Nat} {x y : Nat}
    (hx : x ∈ l) (hy : y ∈ l) (hne : x ≠ y) : 1 < l.length := by
  cases l with
  | nil => cases hx
  | cons a t =>
    cases t with
    | nil =>
      rw [List.mem_singleton] at hx hy
      exact absurd (hx.trans hy.symm) hne
    | cons b t2 =>
      rw [List.length_cons, List.length_cons]
      omega

theorem exists_ne_mem_of_one_lt_length {l : List Nat} (h : 1 < l.length)
    (hnd : l.Nodup) {x : Nat} (hx : x ∈ l) : ∃ y ∈ l, y ≠ x := by
  cases l with
  | nil => cases hx
  | cons a t =>
    cases t with
    | nil => simp at h
    | cons b t2 =>
      have hab : a ≠ b := (List.pairwise_cons.1 hnd).1 b (List.mem_cons_self _ _)
      by_cases hxa : x = a
      · refine ⟨b, List.mem_cons_of_mem _ (List.mem_cons_self _ _), ?_⟩
        rw [hxa]
        exact hab.symm
      · exact ⟨a, List.mem_cons_self _ _, fun hcon => hxa hcon.symm⟩

theorem connected_ne_incident (E : List (Nat × Nat)) (x y : Nat)
    (h : Connected E x y) : x ≠ y →
      (∃ e ∈ E, e.1 = x ∨ e.2 = x) ∧ (∃ e ∈ E, e.1 = y ∨ e.2 = y) := by
  induction h with
  | rel a b hab =>
    intro _
    exact ⟨⟨(a, b), hab, Or.inl rfl⟩, ⟨(a, b), hab, Or.inr rfl⟩⟩
  | refl a =>
    intro hne
    exact absurd rfl hne
  | symm a b hab ih =>
    intro hne
    obtain ⟨h1, h2⟩ := ih (Ne.symm hne)
    exact ⟨h2, h1⟩
  | trans a b c hab hbc ih1 ih2 =>
    intro hne
    by_cases hab' : a = b
    · subst hab'
      exact ih2 hne
    · have h1 := ih1 hab'
      by_cases hbc' : b = c
      · subst hbc'
        exact h1
      · exact ⟨h1.1, (ih2 hbc').2⟩

/-- **C1**: for every set of threshold-qualifying edges produced by phase-1
search, the merge step returns exactly the connected components of size > 1
of the edge graph over rows 0..n-1: the groups are pairwise disjoint, each
has size at least 2, two distinct rows share a group exactly when a chain
of qualifying edges connects them, and the sum of the group sizes equals
the number of rows incident to at least one qualifying edge. -/
theorem C1_merge_components (n : Nat) (E : List (Nat × Nat))
    (hE : QualifyingEdges n E) : C1Prop n E := by
  have hmemg : ∀ g, g ∈ merge_duplicate_groups n E ↔
      ((∃ r ∈ dictKeys ((List.range n).map fun i => (mergeUF n E).rootD i),
          classOf (mergeUF n E) n r = g) ∧ 1 < g.length) := by
    intro g
    constructor
    · intro hg
      rw [merge_duplicate_groups, List.mem_filter] at hg
      obtain ⟨hmain, hlen⟩ := hg
      rw [List.mem_map] at hmain
      obtain ⟨r, hr, hrg⟩ := hmain
      refine ⟨⟨r, hr, hrg⟩, ?_⟩
      rwa [decide_eq_true_iff] at hlen
    · rintro ⟨⟨r, hr, rfl⟩, hlen⟩
      rw [merge_duplicate_groups, List.mem_filter]
      exact ⟨List.mem_map.2 ⟨r, hr, rfl⟩, decide_eq_true_iff.2 hlen⟩
  have hdisj : (merge_duplicate_groups n E).Pairwise fun g h => ∀ i ∈ g, i ∉ h := by
    refine List.Pairwise.filter _ ?_
    rw [List.pairwise_map]
    refine List.Pairwise.imp ?_
      (dictKeys_nodup ((List.range n).map fun i => (mergeUF n E).rootD i))
    intro r s hrs i hir his
    rw [mem_classOf] at hir his
    exact hrs (by rw [← hir.2, ← his.2])
  have hsize : ∀ g ∈ merge_duplicate_groups n E, 2 ≤ g.length := by
    intro g hg
    have := ((hmemg g).1 hg).2
    omega
  have hnodupg : ∀ g ∈ merge_duplicate_groups n E, g.Nodup := by
    intro g hg
    obtain ⟨⟨r, hr, rfl⟩, _⟩ := (hmemg g).1 hg
    exact classOf_nodup _ _ _
  have hc : ∀ x y, x ≠ y →
      ((∃ g ∈ merge_duplicate_groups n E, x ∈ g ∧ y ∈ g) ↔ Connected E x y) := by
    intro x y hxy
    constructor
    · rintro ⟨g, hg, hxg, hyg⟩
      obtain ⟨⟨r, hr, rfl⟩, hlen⟩ := (hmemg g).1 hg
      rw [mem_classOf] at hxg hyg
      have hequiv : (mergeUF n E).Equiv x y := by
        show (mergeUF n E).rootD x = (mergeUF n E).rootD y
        rw [hxg.2, hyg.2]
      rcases (mergeUF_equiv n E hE x y).1 hequiv with rfl | h
      · exact absurd rfl hxy
      · exact h
    · intro h
      obtain ⟨⟨e1, he1, hx1⟩, ⟨e2, he2, hy2⟩⟩ := connected_ne_incident E x y h hxy
      have hxn : x < n := by
        rcases hx1 with h1 | h1
        · exact h1 ▸ (hE e1 he1).1
        · exact h1 ▸ (hE e1 he1).2.1
      have hyn : y < n := by
        rcases hy2 with h1 | h1
        · exact h1 ▸ (hE e2 he2).1
        · exact h1 ▸ (hE e2 he2).2.1
      have hequiv : (mergeUF n E).Equiv x y :=
        (mergeUF_equiv n E hE x y).2 (Or.inr h)
      have hrooty : (mergeUF n E).rootD y = (mergeUF n E).rootD x := hequiv.symm
      have hxc : x ∈ classOf (mergeUF n E) n ((mergeUF n E).rootD x) :=
        (mem_classOf _ _ _ _).2 ⟨hxn, rfl⟩
      have hyc : y ∈ classOf (mergeUF n E) n ((mergeUF n E).rootD x) :=
        (mem_classOf _ _ _ _).2 ⟨hyn, hrooty⟩
      refine ⟨classOf (mergeUF n E) n ((mergeUF n E).rootD x), ?_, hxc, hyc⟩
      rw [hmemg]
      refine ⟨⟨(mergeUF n E).rootD x, ?_, rfl⟩, ?_⟩
      · rw [mem_dictKeys, List.mem_map]
        exact ⟨x, List.mem_range.2 hxn, rfl⟩
      · exact one_lt_length_of_two_mem hxc hyc hxy
  refine ⟨hdisj, hsize, hc, ?_⟩
  have hflatnodup : (merge_duplicate_groups n E).flatten.Nodup := by
    rw [List.nodup_flatten]
    exact ⟨hnodupg, hdisj⟩
  have hfilnodup : ((List.range n).filter fun x =>
      E.any fun e => e.1 == x || e.2 == x).Nodup :=
    (List.nodup_range n).filter _
  have hmemiff : ∀ i, i ∈ (merge_duplicate_groups n E).flatten
      ↔ i ∈ (List.range n).filter fun x => E.any fun e => e.1 == x || e.2 == x := by
    intro i
    rw [List.mem_flatten, List.mem_filter, List.mem_range, List.any_eq_true]
    constructor
    · rintro ⟨g, hg, hig⟩
      obtain ⟨⟨r, hr, rfl⟩, hlen⟩ := (hmemg g).1 hg
      obtain ⟨j, hjg, hji⟩ :=
        exists_ne_mem_of_one_lt_length hlen (classOf_nodup (mergeUF n E) n r) hig
      rw [mem_classOf] at hig hjg
      have hequiv : (mergeUF n E).Equiv i j := by
        show (mergeUF n E).rootD i = (mergeUF n E).rootD j
        rw [hig.2, hjg.2]
      rcases (mergeUF_equiv n E hE i j).1 hequiv with heq | hcon
      · exact absurd heq.symm hji
      · obtain ⟨⟨e1, he1, hi1⟩, _⟩ :=
          connected_ne_incident E i j hcon fun hh => hji hh.symm
        refine ⟨hig.1, e1, he1, ?_⟩
        rw [Bool.or_eq_true, beq_iff_eq, beq_iff_eq]
        exact hi1
    · rintro ⟨hin, e, he, hinc⟩
      rw [Bool.or_eq_true, beq_iff_eq, beq_iff_eq] at hinc
      have hq := hE e he
      have hconn : ∃ j, j ≠ i ∧ Connected E i j := by
        rcases hinc with h1 | h1
        · refine ⟨e.2, ?_, ?_⟩
          · rw [← h1]
            exact Ne.symm hq.2.2
          · refine Relation.EqvGen.rel _ _ ?_
            rw [← h1]
            exact he
        · refine ⟨e.1, ?_, ?_⟩
          · rw [← h1]
            exact hq.2.2
          · refine Relation.EqvGen.symm _ _ (Relation.EqvGen.rel _ _ ?_)
            rw [← h1]
            exact he
      obtain ⟨j, hji, hconn⟩ := hconn
      obtain ⟨g, hg, hig2, _⟩ := (hc i j fun hh => hji hh.symm).2 hconn
      exact ⟨g, hg, hig2⟩
  have hperm := (List.perm_ext_iff_of_nodup hflatnodup hfilnodup).2 hmemiff
  rw [← List.length_flatten]
  exact hperm.length_eq

theorem C1_merge_components_witness :
    QualifyingEdges 3 [(0, 1), (1, 2)] ∧ C1Prop 3 [(0, 1), (1, 2)] :=
  ⟨by unfold QualifyingEdges; decide,
   C1_merge_components 3 [(0, 1), (1, 2)] (by unfold QualifyingEdges; decide)⟩
